import Mathlib

/-!
Shallow embedding of the workflow-graph core of the `alteryx2python`
repository: the loader (`alteryx_parser.py`) and the graph helpers
(`traverse_helper.py`).  Pandas DataFrames are modelled as Lists of row
structures; Python `None` cells as `Option`; the `networkx` topological
sort as an executable Kahn algorithm; Python's stable `sorted` as a
stable insertion sort (the stable sort of a list by a key function is
unique, so this is extensionally the library sort).
-/

/-- Row of the `df_nodes` DataFrame built by `load_alteryx_nodes`:
columns `tool_id`, `tool_type`, `text`.  `tool_type` is `Option` because
the `Plugin` attribute may be absent (Python `None`). -/
structure NodeRow where
  tool_id : String
  tool_type : Option String
  text : String
deriving DecidableEq

/-- Row of the `df_connections` DataFrame built by
`load_alteryx_connections`.  Each attribute read by `attrib.get` may be
absent, hence `Option String`. -/
structure ConnRow where
  origin_tool_id : Option String
  origin_connection : Option String
  destination_tool_id : Option String
  destination_connection : Option String
deriving DecidableEq

/-- Row of the container-children DataFrame produced by
`extract_container_children`: columns `container_id`, `child_tools`. -/
structure ContainerRow where
  container_id : String
  child_tools : List String
deriving DecidableEq

/-! ## `get_execution_order` (traverse_helper.py lines 6-31) -/

/-- The edges added to the `networkx` DiGraph: one `(origin, destination)`
pair per connection row whose two tool ids are non-null
(`pd.notnull(origin) and pd.notnull(destination)`). -/
def collapsedEdges (conns : List ConnRow) : List (String × String) :=
  conns.filterMap (fun r =>
    match r.origin_tool_id, r.destination_tool_id with
    | some u, some v => some (u, v)
    | _, _ => none)

/-- `G.add_node` on a dict-backed `networkx` graph: appends the vertex if
it is not already present (insertion order, no duplicates). -/
def insertNew (l : List String) (x : String) : List String :=
  if x ∈ l then l else l ++ [x]

/-- Vertex set of the DiGraph: all `tool_id`s of `df_nodes` (added first),
then the endpoints of every edge (`G.add_edge` inserts missing vertices). -/
def graphVertices (ids : List String) (es : List (String × String)) : List String :=
  es.foldl (fun acc p => insertNew (insertNew acc p.1) p.2) (ids.foldl insertNew [])

/-- A vertex is ready for emission by Kahn's algorithm when no remaining
vertex has an edge into it (its in-degree in the remaining subgraph is 0). -/
def ready (es : List (String × String)) (rem : List String) (v : String) : Bool :=
  rem.all (fun u => !(es.contains (u, v)))

/-- Kahn's algorithm, the standard algorithm behind
`nx.topological_sort`: repeatedly emit a vertex with in-degree 0 among
the remaining vertices; if none exists while vertices remain, the graph
has a cycle and the sort fails (`NetworkXUnfeasible`).  `fuel` bounds the
recursion; one vertex is removed per step, so `rem.length` fuel is exact. -/
def kahnAux (es : List (String × String)) : Nat → List String → Option (List String)
  | 0, rem => if rem.isEmpty then some [] else none
  | fuel+1, rem =>
    match rem.find? (ready es rem) with
    | none => if rem.isEmpty then some [] else none
    | some v =>
      match kahnAux es fuel (rem.erase v) with
      | some order => some (v :: order)
      | none => none

/-- `list(nx.topological_sort(G))`: `some order` on success, `none` when a
cycle makes the sort unfeasible. -/
def topoSort (es : List (String × String)) (vs : List String) : Option (List String) :=
  kahnAux es vs.length vs

/-- `get_execution_order(df_nodes, df_connections)`: builds the DiGraph
from all node tool ids plus the non-null connection edges and
topologically sorts it; a cycle raises
`Exception("Cycle detected in workflow connections!")`, modelled as
`Except.error` with that message. -/
def get_execution_order (df_nodes : List NodeRow) (df_connections : List ConnRow) :
    Except String (List String) :=
  match topoSort (collapsedEdges df_connections)
      (graphVertices (df_nodes.map NodeRow.tool_id) (collapsedEdges df_connections)) with
  | some order => Except.ok order
  | none => Except.error "Cycle detected in workflow connections!"

/-- One step along a collapsed edge of the workflow graph. -/
def edgeStep (es : List (String × String)) (a b : String) : Prop := (a, b) ∈ es

/-- The collapsed edge relation has no (nonempty, directed) cycle: no
vertex reaches itself through one or more edges. -/
def Acyclic (es : List (String × String)) : Prop :=
  ∀ v, ¬ Relation.TransGen (edgeStep es) v v

/-! ## `adjust_order` (traverse_helper.py lines 34-37) -/

/-- Index assigned to `tool` by the dict comprehension
`{tool: index for index, tool in enumerate(execution_sequence)}`: the
index of the LAST occurrence (later dict writes overwrite earlier ones);
`none` when the tool does not occur. -/
def seqKeyAux (tool : String) : Nat → List String → Option Nat
  | _, [] => none
  | i, t :: ts =>
    match seqKeyAux tool (i+1) ts with
    | some j => some j
    | none => if t = tool then some i else none

/-- Sort key of `adjust_order`: `sequence_lookup.get(tool, float('inf'))`.
`float('inf')` is modelled by `seq.length`, which is strictly greater
than every genuine index, so all comparisons made by the sort agree. -/
def seqKey (seq : List String) (tool : String) : Nat :=
  (seqKeyAux tool 0 seq).getD seq.length

/-- Stable insertion step: `x` is placed before the first element with a
key not smaller than its own, so elements with equal keys keep their
original relative order (the behaviour of Python's stable `sorted`). -/
def insertByKey (k : String → Nat) (x : String) : List String → List String
  | [] => [x]
  | y :: ys => if k x ≤ k y then x :: y :: ys else y :: insertByKey k x ys

/-- Stable sort by a key function.  Python's `sorted(..., key=...)` is a
stable sort, and the stable sort of a list by a fixed key is unique, so
this insertion sort computes exactly the same list. -/
def sortByKey (k : String → Nat) : List String → List String
  | [] => []
  | x :: xs => insertByKey k x (sortByKey k xs)

/-- `adjust_order(random_tool_ids, execution_sequence)`:
`sorted(random_tool_ids, key=lambda tool: sequence_lookup.get(tool, float('inf')))`. -/
def adjust_order (random_tool_ids : List String) (execution_sequence : List String) :
    List String :=
  sortByKey (seqKey execution_sequence) random_tool_ids

/-! ## `parse_linear_chains` (traverse_helper.py lines 40-110) -/

/-- Python `str(...)` applied to a DataFrame cell that is either a string
or `None` (`str(None) == "None"`). -/
def pyStr : Option String → String
  | some s => s
  | none => "None"

/-- The `(str(origin), str(destination))` pair of every connection row,
in row order, as read by the graph-building loop of
`parse_linear_chains`. -/
def rowPairs (conns : List ConnRow) : List (String × String) :=
  conns.map (fun r => (pyStr r.origin_tool_id, pyStr r.destination_tool_id))

/-- `adj_list[u].append(v)` on a dict-backed `defaultdict(list)`:
append `v` to the list of the existing key `u`, or append a fresh key. -/
def addAdj (adj : List (String × List String)) (u v : String) : List (String × List String) :=
  match adj with
  | [] => [(u, [v])]
  | (w, vs) :: rest => if w = u then (w, vs ++ [v]) :: rest else (w, vs) :: addAdj rest u v

/-- The adjacency dict after the graph-building loop, keyed in first-write
order.  The subsequent "ensure every node" loop only adds keys with empty
adjacency lists, which contribute nothing to the main loop, so it is not
modelled. -/
def buildAdj (rows : List (String × String)) : List (String × List String) :=
  rows.foldl (fun adj p => addAdj adj p.1 p.2) []

/-- `adj_list[u]` (defaultdict read: missing key yields the empty list). -/
def adjLookup (adj : List (String × List String)) (u : String) : List String :=
  match adj.find? (fun p => p.1 = u) with
  | some p => p.2
  | none => []

/-- `out_degree[u]`: incremented once per row whose origin is `u`. -/
def outDeg (rows : List (String × String)) (u : String) : Nat :=
  (rows.filter (fun p => p.1 = u)).length

/-- `in_degree[v]`: incremented once per row whose destination is `v`. -/
def inDeg (rows : List (String × String)) (v : String) : Nat :=
  (rows.filter (fun p => p.2 = v)).length

/-- The `while` loop inside `build_chain`: while the current vertex has
in-degree 1 and out-degree 1, follow its unique outgoing edge, unless
that edge is already used.  `fuel` bounds the loop; each iteration
consumes a previously unused edge, so `rows.length` fuel is never
exhausted. -/
def chainLoop (rows : List (String × String)) (adj : List (String × List String)) :
    Nat → List String → List (String × String) → String → List String × List (String × String)
  | 0, chain, used, _ => (chain, used)
  | fuel+1, chain, used, current =>
    if inDeg rows current = 1 ∧ outDeg rows current = 1 then
      match adjLookup adj current with
      | [] => (chain, used)
      | nxt :: _ =>
        if (current, nxt) ∈ used then (chain, used)
        else chainLoop rows adj fuel (chain ++ [nxt]) (used ++ [(current, nxt)]) nxt
    else (chain, used)

/-- `build_chain(u, v)`: start the chain `[u, v]`, mark `(u, v)` used,
then extend while the current vertex is linear. -/
def build_chain (rows : List (String × String)) (adj : List (String × List String))
    (fuel : Nat) (used : List (String × String)) (u v : String) :
    List String × List (String × String) :=
  chainLoop rows adj fuel [u, v] (used ++ [(u, v)]) v

/-- Inner loop of step 3: `for v in adj_list[u]`, skipping used edges and
building a chain from each unused edge.  State: (chains, used_edges). -/
def mainInner (rows : List (String × String)) (adj : List (String × List String))
    (u : String) : List (List String) × List (String × String) → List String →
    List (List String) × List (String × String)
  | st, [] => st
  | st, v :: vs =>
    if (u, v) ∈ st.2 then mainInner rows adj u st vs
    else
      match build_chain rows adj rows.length st.2 u v with
      | (c, used') => mainInner rows adj u (st.1 ++ [c], used') vs

/-- Outer loop of step 3: `for u in adj_list`. -/
def mainOuter (rows : List (String × String)) (adj : List (String × List String)) :
    List (List String) × List (String × String) → List (String × List String) →
    List (List String) × List (String × String)
  | st, [] => st
  | st, (u, vs) :: rest => mainOuter rows adj (mainInner rows adj u st vs) rest

/-- `parse_linear_chains(df_connections)`: build the adjacency structure
and decompose the edge multiset into linear chains. -/
def parse_linear_chains (df_connections : List ConnRow) : List (List String) :=
  (mainOuter (rowPairs df_connections) (buildAdj (rowPairs df_connections))
    ([], []) (buildAdj (rowPairs df_connections))).1

/-- Consecutive-vertex pairs of a chain (the edges the chain claims). -/
def chainPairs : List String → List (String × String)
  | a :: b :: rest => (a, b) :: chainPairs (b :: rest)
  | _ => []

/-- All consecutive-vertex pairs of a list of chains, with multiplicity. -/
def chainsPairs (chains : List (List String)) : List (String × String) :=
  (chains.map chainPairs).flatten

/-- The `(u, v)` pairs stored in an adjacency dict, with multiplicity. -/
def adjPairs (adj : List (String × List String)) : List (String × String) :=
  (adj.map (fun p => p.2.map (fun v => (p.1, v)))).flatten

/-- Postcondition of the chain-extension loop relative to a starting
chain: the loop only appends; the used set grows by exactly the chain's
consecutive pairs; no pair is used twice; every chain pair is a
connection pair; every interior vertex has in- and out-degree 1. -/
def ChainLoopPost (rows U0 : List (String × String)) (chain : List String)
    (r : List String × List (String × String)) : Prop :=
  (∃ ext, r.1 = chain ++ ext) ∧
  r.2 = U0 ++ chainPairs r.1 ∧
  r.2.Nodup ∧
  (∀ p ∈ chainPairs r.1, p ∈ rows) ∧
  (∀ x ∈ r.1.tail.dropLast, inDeg rows x = 1 ∧ outDeg rows x = 1)

/-- Invariant of the main loop's state `(chains, used_edges)`: the used
set is exactly the chains' consecutive pairs (so no edge is claimed by
two chains), every used pair is a connection pair, and every chain is a
path of length ≥ 2 whose interior vertices are strictly linear. -/
def StInv (rows : List (String × String))
    (st : List (List String) × List (String × String)) : Prop :=
  st.2 = chainsPairs st.1 ∧
  st.2.Nodup ∧
  (∀ p ∈ st.2, p ∈ rows) ∧
  (∀ c ∈ st.1, 2 ≤ c.length ∧ (∀ p ∈ chainPairs c, p ∈ rows) ∧
    (∀ x ∈ c.tail.dropLast, inDeg rows x = 1 ∧ outDeg rows x = 1))

/-! ## Workflow loader (alteryx_parser.py) -/

/-- An XML element as seen through `xml.etree.ElementTree`: tag,
attribute dict (insertion order) and child elements. -/
inductive XmlElem where
  | elem (tag : String) (attrs : List (String × String)) (children : List XmlElem)

def XmlElem.tag : XmlElem → String
  | XmlElem.elem t _ _ => t

def XmlElem.attrs : XmlElem → List (String × String)
  | XmlElem.elem _ a _ => a

def XmlElem.children : XmlElem → List XmlElem
  | XmlElem.elem _ _ cs => cs

/-- `element.attrib.get(name)`. -/
def attrGet (e : XmlElem) (name : String) : Option String :=
  match e.attrs.find? (fun p => p.1 = name) with
  | some p => some p.2
  | none => none

/-- `element.find(tag)`: first DIRECT child with the given tag. -/
def findChild (e : XmlElem) (t : String) : Option XmlElem :=
  e.children.find? (fun c => c.tag = t)

/-- Serialisation of an attribute dict, as `ET.tostring` renders it
(attribute-value escaping is not modelled; no claim depends on the
payload text). -/
def attrsString (attrs : List (String × String)) : String :=
  String.join (attrs.map (fun p => " " ++ p.1 ++ "=\x22" ++ p.2 ++ "\x22"))

/-- Concatenated serialisation of a list of elements
(`''.join(ET.tostring(child) for child in element)`). -/
def xmlStringList : List XmlElem → String
  | [] => ""
  | XmlElem.elem t a cs :: rest =>
    "<" ++ t ++ attrsString a ++ ">" ++ xmlStringList cs ++ "</" ++ t ++ ">"
      ++ xmlStringList rest

/-- `inner_xml(element)`: the serialised children of the element. -/
def inner_xml (e : XmlElem) : String :=
  xmlStringList e.children

/-- Python `str.title()` restricted to the ASCII alphanumeric plugin
names handled here: the first letter of every maximal run of letters is
uppercased and the following letters of the run are lowercased;
non-letter characters pass through and start a new run. -/
def pyTitleAux : Bool → List Char → List Char
  | _, [] => []
  | prevCased, c :: cs =>
    if c.isAlpha then
      (if prevCased then c.toLower else c.toUpper) :: pyTitleAux true cs
    else
      c :: pyTitleAux false cs

def pyTitle (s : String) : String :=
  String.mk (pyTitleAux false s.data)

/-- Python `s.split('.')` on the character list: maximal runs between
dots, with empty segments kept (`"".split('.') == [""]`). -/
def splitOnDot : List Char → List (List Char)
  | [] => [[]]
  | c :: cs =>
    if c = '.' then [] :: splitOnDot cs
    else
      match splitOnDot cs with
      | seg :: rest => (c :: seg) :: rest
      | [] => [[c]]

/-- Type normalisation of `load_alteryx_nodes` (lines 22-28): take the
last dot-separated segment (`tool_type.split('.')[-1]`), strip a trailing
`"()"` if present (`endswith("()")` / `[:-2]`), and apply `str.title()`.
Implemented on character lists so that it evaluates by kernel reduction. -/
def normalizeTypeIndicator (s : String) : String :=
  String.mk
    (pyTitleAux false
      (if ((splitOnDot s.data).getLastD s.data).reverse.take 2 = [')', '('] then
        (((splitOnDot s.data).getLastD s.data).reverse.drop 2).reverse
      else (splitOnDot s.data).getLastD s.data))

/-- The `tool_type` recorded for a node element: the `Plugin` attribute
of its `GuiSettings` child, normalised when truthy (nonempty). -/
def rawPlugin (e : XmlElem) : Option String :=
  match findChild e "GuiSettings" with
  | some gs => attrGet gs "Plugin"
  | none => none

def nodeType (e : XmlElem) : Option String :=
  match rawPlugin e with
  | some t => if t ≠ "" then some (normalizeTypeIndicator t) else some t
  | none => none

/-- The row appended for one element by `traverse`: only `Node`-tagged
elements with a truthy (present, nonempty) `ToolID` produce a row. -/
def processNode (e : XmlElem) : Option NodeRow :=
  if e.tag = "Node" then
    match attrGet e "ToolID" with
    | some tid =>
      if tid ≠ "" then some { tool_id := tid, tool_type := nodeType e, text := inner_xml e }
      else none
    | none => none
  else none

/-- Depth-first traversal of `load_alteryx_nodes`: the row of each
element (if any) followed by the rows of its subtree, then the rows of
its right siblings. -/
def traverseList : List XmlElem → List NodeRow
  | [] => []
  | XmlElem.elem t a cs :: rest =>
    (processNode (XmlElem.elem t a cs)).toList ++ (traverseList cs ++ traverseList rest)

/-- All elements of a forest in depth-first preorder. -/
def elemsList : List XmlElem → List XmlElem
  | [] => []
  | XmlElem.elem t a cs :: rest =>
    XmlElem.elem t a cs :: (elemsList cs ++ elemsList rest)

/-- `load_alteryx_nodes`: one row per `Node` element with a truthy
`ToolID`, in depth-first document order (the root itself is also
examined by `traverse(root)`). -/
def load_alteryx_nodes (root : XmlElem) : List NodeRow :=
  traverseList [root]

/-- `load_alteryx_connections`: the `Connection` children of the
`Connections` element, skipping entries missing the `Origin` or
`Destination` child. -/
def load_alteryx_connections (root : XmlElem) : List ConnRow :=
  match findChild root "Connections" with
  | none => []
  | some ce =>
    (ce.children.filter (fun c => c.tag = "Connection")).filterMap (fun c =>
      match findChild c "Origin", findChild c "Destination" with
      | some o, some d =>
        some { origin_tool_id := attrGet o "ToolID",
               origin_connection := attrGet o "Connection",
               destination_tool_id := attrGet d "ToolID",
               destination_connection := attrGet d "Connection" }
      | _, _ => none)

/-- `load_alteryx_data(file_path)`: the argument models the outcome of
`ET.parse` on the document (`Except.error` = `ParseError` or any other
exception while loading).  The `except` branches print the failure and
return two empty DataFrames; no exception propagates to the caller. -/
def load_alteryx_data (doc : Except String XmlElem) : List NodeRow × List ConnRow :=
  match doc with
  | Except.ok root => (load_alteryx_nodes root, load_alteryx_connections root)
  | Except.error _ => ([], [])

/-- `clean_container_children(df_containers, df_nodes)`: drop each child
id whose first matching node row has `tool_type` in the literal set
`{"Toolcontainer", "BrowseV2"}` (a case-SENSITIVE test, despite the
comment in the source); children with no matching node row are kept. -/
def clean_container_children (df_containers : List ContainerRow) (df_nodes : List NodeRow) :
    List ContainerRow :=
  df_containers.map (fun row =>
    { container_id := row.container_id,
      child_tools := row.child_tools.filter (fun cid =>
        match df_nodes.find? (fun n => n.tool_id = cid) with
        | some n => decide (n.tool_type ≠ some "Toolcontainer" ∧ n.tool_type ≠ some "BrowseV2")
        | none => true) })

/-- Sample workflow document used to exercise the loader on concrete
input: a single Filter tool. -/
def sampleNode : XmlElem :=
  XmlElem.elem "Node" [("ToolID", "7")]
    [XmlElem.elem "GuiSettings" [("Plugin", "AlteryxBasePluginsGui.Plugins.Filter")] []]

def sampleRoot : XmlElem :=
  XmlElem.elem "AlteryxDocument" [] [sampleNode]

/-! ## Lemmas about the `adjust_order` sort key -/

lemma seqKeyAux_none_iff (tool : String) :
    ∀ (seq : List String) (i : Nat), seqKeyAux tool i seq = none ↔ tool ∉ seq := by
  intro seq
  induction seq with
  | nil => intro i; simp [seqKeyAux]
  | cons t ts ih =>
    intro i
    constructor
    · intro h hmem
      simp only [seqKeyAux] at h
      cases hrec : seqKeyAux tool (i+1) ts with
      | some j => rw [hrec] at h; exact absurd h (by simp)
      | none =>
        rw [hrec] at h
        have hts : tool ∉ ts := (ih (i+1)).1 hrec
        rcases List.mem_cons.1 hmem with rfl | hmem'
        · simp at h
        · exact hts hmem'
    · intro hmem
      have hts : tool ∉ ts := fun h => hmem (List.mem_cons_of_mem _ h)
      have ht : t ≠ tool := fun h => hmem (h ▸ List.mem_cons_self t ts)
      simp only [seqKeyAux]
      rw [(ih (i+1)).2 hts]
      simp [ht]

lemma seqKeyAux_lt (tool : String) :
    ∀ (seq : List String) (i j : Nat), seqKeyAux tool i seq = some j → j < i + seq.length := by
  intro seq
  induction seq with
  | nil => intro i j h; simp [seqKeyAux] at h
  | cons t ts ih =>
    intro i j h
    simp only [seqKeyAux] at h
    cases hrec : seqKeyAux tool (i+1) ts with
    | some j' =>
      rw [hrec] at h
      have hj : j' = j := by simpa using h
      have := ih (i+1) j' hrec
      simp only [List.length_cons]
      omega
    | none =>
      rw [hrec] at h
      by_cases ht : t = tool
      · simp only [ht, if_pos rfl] at h
        have : i = j := by simpa using h
        simp only [List.length_cons]
        omega
      · simp [ht] at h

lemma seqKeyAux_of_nodup (tool : String) :
    ∀ (seq : List String) (i : Nat), seq.Nodup → tool ∈ seq →
      seqKeyAux tool i seq = some (i + seq.indexOf tool) := by
  intro seq
  induction seq with
  | nil => intro i _ h; simp at h
  | cons t ts ih =>
    intro i hnd hmem
    have hnd' : ts.Nodup := hnd.of_cons
    have htn : t ∉ ts := (List.nodup_cons.1 hnd).1
    by_cases hts : tool ∈ ts
    · have htt : t ≠ tool := fun h => htn (h ▸ hts)
      simp only [seqKeyAux]
      rw [ih (i+1) hnd' hts]
      rw [List.indexOf_cons_ne ts htt]
      exact congrArg some (by omega)
    · have : tool = t := by
        rcases List.mem_cons.1 hmem with rfl | h
        · rfl
        · exact absurd h hts
      subst this
      simp only [seqKeyAux]
      rw [(seqKeyAux_none_iff tool ts (i+1)).2 hts]
      simp [List.indexOf_cons_self]

lemma seqKey_lt_of_mem {seq : List String} {tool : String} (h : tool ∈ seq) :
    seqKey seq tool < seq.length := by
  unfold seqKey
  cases hx : seqKeyAux tool 0 seq with
  | none => exact absurd ((seqKeyAux_none_iff tool seq 0).1 hx) (by simp [h])
  | some j =>
    have := seqKeyAux_lt tool seq 0 j hx
    simpa using this

lemma seqKey_of_not_mem {seq : List String} {tool : String} (h : tool ∉ seq) :
    seqKey seq tool = seq.length := by
  unfold seqKey
  rw [(seqKeyAux_none_iff tool seq 0).2 h]
  rfl

lemma seqKey_eq_indexOf {seq : List String} {tool : String} (hnd : seq.Nodup) (h : tool ∈ seq) :
    seqKey seq tool = seq.indexOf tool := by
  unfold seqKey
  rw [seqKeyAux_of_nodup tool seq 0 hnd h]
  simp

/-! ## Lemmas about the stable insertion sort -/

lemma insertByKey_perm (k : String → Nat) (x : String) :
    ∀ (l : List String), (insertByKey k x l).Perm (x :: l) := by
  intro l
  induction l with
  | nil => simp [insertByKey]
  | cons y ys ih =>
    simp only [insertByKey]
    split
    · exact List.Perm.refl _
    · exact (ih.cons y).trans (List.Perm.swap x y ys)

lemma mem_insertByKey {k : String → Nat} {x a : String} {l : List String} :
    a ∈ insertByKey k x l ↔ a = x ∨ a ∈ l := by
  have := (insertByKey_perm k x l).mem_iff (a := a)
  simpa using this

lemma sortByKey_perm (k : String → Nat) : ∀ (l : List String), (sortByKey k l).Perm l := by
  intro l
  induction l with
  | nil => simp [sortByKey]
  | cons x xs ih =>
    simp only [sortByKey]
    exact (insertByKey_perm k x (sortByKey k xs)).trans (ih.cons x)

lemma insertByKey_pairwise (k : String → Nat) (x : String) :
    ∀ (l : List String), l.Pairwise (fun a b => k a ≤ k b) →
      (insertByKey k x l).Pairwise (fun a b => k a ≤ k b) := by
  intro l
  induction l with
  | nil => intro _; simp [insertByKey]
  | cons y ys ih =>
    intro hp
    rw [List.pairwise_cons] at hp
    obtain ⟨hy, hys⟩ := hp
    simp only [insertByKey]
    split
    · rename_i hxy
      rw [List.pairwise_cons]
      refine ⟨?_, List.pairwise_cons.2 ⟨hy, hys⟩⟩
      intro b hb
      rcases List.mem_cons.1 hb with rfl | hb'
      · exact hxy
      · exact le_trans hxy (hy b hb')
    · rename_i hxy
      rw [List.pairwise_cons]
      constructor
      · intro b hb
        rcases mem_insertByKey.1 hb with rfl | hb'
        · omega
        · exact hy b hb'
      · exact ih hys

lemma sortByKey_pairwise (k : String → Nat) :
    ∀ (l : List String), (sortByKey k l).Pairwise (fun a b => k a ≤ k b) := by
  intro l
  induction l with
  | nil => simp [sortByKey]
  | cons x xs ih =>
    simp only [sortByKey]
    exact insertByKey_pairwise k x _ ih

lemma insertByKey_of_le (k : String → Nat) (x : String) :
    ∀ (A : List String), (∀ a ∈ A, k x ≤ k a) → insertByKey k x A = x :: A := by
  intro A h
  cases A with
  | nil => rfl
  | cons a as => simp [insertByKey, h a (List.mem_cons_self a as)]

lemma insertByKey_append_left (k : String → Nat) (x : String) :
    ∀ (P A : List String), (∀ a ∈ A, k x ≤ k a) →
      insertByKey k x (P ++ A) = insertByKey k x P ++ A := by
  intro P
  induction P with
  | nil =>
    intro A h
    rw [List.nil_append, insertByKey_of_le k x A h]
    rfl
  | cons y P' ih =>
    intro A h
    simp only [List.cons_append, insertByKey, List.append_eq]
    split
    · rfl
    · rw [ih A h]
      rfl

lemma insertByKey_append_right (k : String → Nat) (x : String) :
    ∀ (P A : List String), (∀ p ∈ P, ¬ (k x ≤ k p)) →
      insertByKey k x (P ++ A) = P ++ insertByKey k x A := by
  intro P
  induction P with
  | nil => intro A _; rfl
  | cons y P' ih =>
    intro A h
    simp only [List.cons_append, insertByKey, List.append_eq]
    rw [if_neg (h y (List.mem_cons_self y P'))]
    rw [ih A (fun p hp => h p (List.mem_cons_of_mem y hp))]

lemma sortByKey_eq_of_pairwise (k : String → Nat) :
    ∀ (l : List String), l.Pairwise (fun a b => k a ≤ k b) → sortByKey k l = l := by
  intro l
  induction l with
  | nil => intro _; rfl
  | cons x xs ih =>
    intro hp
    rw [List.pairwise_cons] at hp
    obtain ⟨hx, hxs⟩ := hp
    simp only [sortByKey]
    rw [ih hxs, insertByKey_of_le k x xs hx]

lemma sortByKey_filter_split (seq : List String) :
    ∀ (ids : List String),
      sortByKey (seqKey seq) ids =
        sortByKey (seqKey seq) (ids.filter (fun x => decide (x ∈ seq)))
          ++ ids.filter (fun x => decide (x ∉ seq)) := by
  intro ids
  induction ids with
  | nil => rfl
  | cons x ids ih =>
    by_cases hx : x ∈ seq
    · have hfp : (x :: ids).filter (fun y => decide (y ∈ seq))
          = x :: ids.filter (fun y => decide (y ∈ seq)) := by simp [hx]
      have hfa : (x :: ids).filter (fun y => decide (y ∉ seq))
          = ids.filter (fun y => decide (y ∉ seq)) := by simp [hx]
      rw [hfp, hfa]
      simp only [sortByKey]
      rw [ih]
      apply insertByKey_append_left
      intro a ha
      have ha' : a ∉ seq := by simpa using (List.mem_filter.1 ha).2
      rw [seqKey_of_not_mem ha']
      exact le_of_lt (seqKey_lt_of_mem hx)
    · have hfp : (x :: ids).filter (fun y => decide (y ∈ seq))
          = ids.filter (fun y => decide (y ∈ seq)) := by simp [hx]
      have hfa : (x :: ids).filter (fun y => decide (y ∉ seq))
          = x :: ids.filter (fun y => decide (y ∉ seq)) := by simp [hx]
      rw [hfp, hfa]
      simp only [sortByKey]
      rw [ih]
      rw [insertByKey_append_right]
      · rw [insertByKey_of_le]
        intro a ha
        have ha' : a ∉ seq := by simpa using (List.mem_filter.1 ha).2
        rw [seqKey_of_not_mem ha', seqKey_of_not_mem hx]
      · intro p hp
        have hp' : p ∈ ids.filter (fun y => decide (y ∈ seq)) :=
          ((sortByKey_perm (seqKey seq) _).mem_iff).1 hp
        have hpm : p ∈ seq := by simpa using (List.mem_filter.1 hp').2
        rw [seqKey_of_not_mem hx]
        have := seqKey_lt_of_mem hpm
        omega

/-! ## Claim theorems for `adjust_order` -/

/-- C5: for every input list of tool ids and every (duplicate-free)
reference execution order, `adjust_order` lists the ids occurring in the
reference first, ordered by their reference positions, followed by the
ids absent from the reference in their original relative order. -/
theorem adjust_order_matches_reference (ids seq : List String) (hseq : seq.Nodup) :
    ∃ P, adjust_order ids seq = P ++ ids.filter (fun x => decide (x ∉ seq)) ∧
      P.Perm (ids.filter (fun x => decide (x ∈ seq))) ∧
      P.Pairwise (fun a b => seq.indexOf a ≤ seq.indexOf b) := by
  refine ⟨sortByKey (seqKey seq) (ids.filter (fun x => decide (x ∈ seq))), ?_, ?_, ?_⟩
  · exact sortByKey_filter_split seq ids
  · exact sortByKey_perm _ _
  · refine List.Pairwise.imp_of_mem ?_ (sortByKey_pairwise (seqKey seq) _)
    intro a b ha hb hk
    have ha' : a ∈ seq := by
      have := ((sortByKey_perm (seqKey seq) _).mem_iff).1 ha
      simpa using (List.mem_filter.1 this).2
    have hb' : b ∈ seq := by
      have := ((sortByKey_perm (seqKey seq) _).mem_iff).1 hb
      simpa using (List.mem_filter.1 this).2
    rwa [seqKey_eq_indexOf hseq ha', seqKey_eq_indexOf hseq hb'] at hk

/-- Witness for C5 at the spec's own scenario: reference `[A,B,C,D,E]`,
subset `[D,B]`. -/
theorem adjust_order_matches_reference_witness :
    ∃ P, adjust_order ["D", "B"] ["A", "B", "C", "D", "E"]
        = P ++ ["D", "B"].filter (fun x => decide (x ∉ ["A", "B", "C", "D", "E"])) ∧
      P.Perm (["D", "B"].filter (fun x => decide (x ∈ ["A", "B", "C", "D", "E"]))) ∧
      P.Pairwise (fun a b =>
        List.indexOf a ["A", "B", "C", "D", "E"] ≤ List.indexOf b ["A", "B", "C", "D", "E"]) :=
  adjust_order_matches_reference ["D", "B"] ["A", "B", "C", "D", "E"] (by decide)

/-- C6: `adjust_order` with a fixed reference order is idempotent: its
output is sorted by the reference key, and sorting a sorted list is the
identity. -/
theorem adjust_order_idempotent (ids seq : List String) :
    adjust_order (adjust_order ids seq) seq = adjust_order ids seq :=
  sortByKey_eq_of_pairwise _ _ (sortByKey_pairwise _ _)

/-! ## Claim theorems for the loader -/

/-- C7: a document on which parsing fails makes `load_alteryx_data`
return two empty tables; the `except` handlers mean no exception reaches
the caller (in the embedding, the function is total). -/
theorem load_alteryx_data_malformed (msg : String) :
    load_alteryx_data (Except.error msg) = ([], []) := rfl

/-- Every row produced for an element anywhere in a forest appears in the
depth-first traversal of that forest. -/
lemma mem_traverseList_of_processNode :
    ∀ (l : List XmlElem) {e : XmlElem} {r : NodeRow},
      e ∈ elemsList l → processNode e = some r → r ∈ traverseList l := by
  intro l
  induction l using elemsList.induct with
  | case1 =>
    intro e r h _
    simp [elemsList] at h
  | case2 t a cs rest ih1 ih2 =>
    intro e r hmem hproc
    simp only [elemsList, List.mem_cons, List.mem_append] at hmem
    simp only [traverseList, List.mem_append]
    rcases hmem with rfl | h | h
    · left
      simp [hproc]
    · right; left
      exact ih1 h hproc
    · right; right
      exact ih2 h hproc

/-- C8: for every tool element (anywhere in the document) whose `Plugin`
type indicator exists and is nonempty, the loader records as its type the
last dot-separated segment of the indicator, with a trailing `"()"`
stripped if present, converted by `str.title()`. -/
theorem load_alteryx_nodes_type_normalized (root e : XmlElem) (tid p : String)
    (hmem : e ∈ elemsList [root]) (htag : e.tag = "Node")
    (hid : attrGet e "ToolID" = some tid) (hid' : tid ≠ "")
    (hp : rawPlugin e = some p) (hp' : p ≠ "") :
    NodeRow.mk tid (some (normalizeTypeIndicator p)) (inner_xml e)
      ∈ load_alteryx_nodes root := by
  apply mem_traverseList_of_processNode _ hmem
  simp [processNode, htag, hid, hid', nodeType, hp, hp']

/-- Witness for C8: a `Node` whose raw `Plugin` value ends in
`"Plugins.Filter"` is recorded with type `"Filter"`. -/
theorem load_alteryx_nodes_type_normalized_witness :
    normalizeTypeIndicator "AlteryxBasePluginsGui.Plugins.Filter" = "Filter" ∧
      NodeRow.mk "7" (some (normalizeTypeIndicator "AlteryxBasePluginsGui.Plugins.Filter"))
          (inner_xml sampleNode)
        ∈ load_alteryx_nodes sampleRoot :=
  ⟨by decide,
    load_alteryx_nodes_type_normalized sampleRoot sampleNode "7"
      "AlteryxBasePluginsGui.Plugins.Filter"
      (by simp [sampleRoot, sampleNode, elemsList])
      (by decide) (by decide) (by decide) (by decide) (by decide)⟩

/-- C4 (code bug): the cleaning step is meant (per its own in-source
comment, which says the check is case-insensitive, and per the loader's
normalisation) to drop container- and browse-typed children, but the
loader records a browse tool's type as `"Browsev2"` (`str.title()` of the
last `Plugin` segment), which the case-sensitive literal `"BrowseV2"` in
`clean_container_children` never matches: a browse child is retained.
The container half of the scenario does hold: a `"Toolcontainer"` child
is dropped. -/
theorem clean_container_children_browse_divergence :
    normalizeTypeIndicator "AlteryxBasePluginsGui.BrowseV2.BrowseV2" = "Browsev2" ∧
      clean_container_children [ContainerRow.mk "12" ["45"]]
          [NodeRow.mk "45" (some "Browsev2") ""]
        = [ContainerRow.mk "12" ["45"]] ∧
      clean_container_children [ContainerRow.mk "12" ["45", "99"]]
          [NodeRow.mk "99" (some "Toolcontainer") ""]
        = [ContainerRow.mk "12" ["45"]] :=
  ⟨by decide, by decide, by decide⟩

/-! ## Lemmas about the topological sort -/

lemma ready_iff {es : List (String × String)} {rem : List String} {v : String} :
    ready es rem v = true ↔ ∀ u ∈ rem, (u, v) ∉ es := by
  simp [ready, List.all_eq_true, List.contains, List.elem_iff]

lemma exists_ready {es : List (String × String)} {rem : List String}
    (hne : rem ≠ []) (hacy : Acyclic es) : ∃ v ∈ rem, ready es rem v = true := by
  haveI : Fintype {x // x ∈ rem} := List.Subtype.fintype rem
  have hirr : ∀ a : {x // x ∈ rem},
      ¬ Relation.TransGen (fun a b : {x // x ∈ rem} => (a.val, b.val) ∈ es) a a := by
    intro a ha
    exact hacy a.val (Relation.TransGen.lift Subtype.val (fun _ _ hab => hab) ha)
  haveI : IsTrans {x // x ∈ rem}
      (Relation.TransGen (fun a b : {x // x ∈ rem} => (a.val, b.val) ∈ es)) :=
    ⟨fun _ _ _ hab hbc => hab.trans hbc⟩
  haveI : IsIrrefl {x // x ∈ rem}
      (Relation.TransGen (fun a b : {x // x ∈ rem} => (a.val, b.val) ∈ es)) := ⟨hirr⟩
  have hwf : WellFounded (fun a b : {x // x ∈ rem} => (a.val, b.val) ∈ es) :=
    Subrelation.wf (fun {_ _} hab => Relation.TransGen.single hab)
      (Finite.wellFounded_of_trans_of_irrefl
        (Relation.TransGen (fun a b : {x // x ∈ rem} => (a.val, b.val) ∈ es)))
  obtain ⟨x0, hx0⟩ := List.exists_mem_of_ne_nil rem hne
  obtain ⟨m, -, hmin⟩ := hwf.has_min Set.univ ⟨⟨x0, hx0⟩, trivial⟩
  refine ⟨m.val, m.prop, ready_iff.2 ?_⟩
  intro u hu hmem
  exact hmin ⟨u, hu⟩ trivial hmem

lemma kahnAux_perm {es : List (String × String)} :
    ∀ (fuel : Nat) (rem order : List String),
      kahnAux es fuel rem = some order → order.Perm rem := by
  intro fuel
  induction fuel with
  | zero =>
    intro rem order h
    simp only [kahnAux] at h
    split at h
    · rename_i hemp
      have h2 := Option.some.inj h
      subst h2
      rw [List.isEmpty_iff] at hemp
      subst hemp
      rfl
    · exact Option.noConfusion h
  | succ fuel ih =>
    intro rem order h
    cases hfind : rem.find? (ready es rem) with
    | none =>
      simp only [kahnAux, hfind] at h
      split at h
      · rename_i hemp
        have h2 := Option.some.inj h
        subst h2
        rw [List.isEmpty_iff] at hemp
        subst hemp
        rfl
      · exact Option.noConfusion h
    | some v =>
      cases hrec : kahnAux es fuel (rem.erase v) with
      | none =>
        simp only [kahnAux, hfind, hrec] at h
        exact Option.noConfusion h
      | some order' =>
        simp only [kahnAux, hfind, hrec] at h
        have h2 := Option.some.inj h
        subst h2
        have hv : v ∈ rem := List.mem_of_find?_eq_some hfind
        exact ((ih _ _ hrec).cons v).trans (List.perm_cons_erase hv).symm

lemma kahnAux_respects {es : List (String × String)} :
    ∀ (fuel : Nat) (rem order : List String),
      kahnAux es fuel rem = some order → rem.Nodup →
      ∀ u v, (u, v) ∈ es → u ∈ rem → v ∈ rem →
        order.indexOf u < order.indexOf v := by
  intro fuel
  induction fuel with
  | zero =>
    intro rem order h _ u v _ hu _
    simp only [kahnAux] at h
    split at h
    · rename_i hemp
      rw [List.isEmpty_iff] at hemp
      subst hemp
      simp at hu
    · exact Option.noConfusion h
  | succ fuel ih =>
    intro rem order h hnd u v huv hu hv
    cases hfind : rem.find? (ready es rem) with
    | none =>
      simp only [kahnAux, hfind] at h
      split at h
      · rename_i hemp
        rw [List.isEmpty_iff] at hemp
        subst hemp
        simp at hu
      · exact Option.noConfusion h
    | some w =>
      cases hrec : kahnAux es fuel (rem.erase w) with
      | none =>
        simp only [kahnAux, hfind, hrec] at h
        exact Option.noConfusion h
      | some order' =>
        simp only [kahnAux, hfind, hrec] at h
        have h2 := Option.some.inj h
        subst h2
        have hready : ready es rem w = true := List.find?_some hfind
        have hnotin : ∀ x ∈ rem, (x, w) ∉ es := ready_iff.1 hready
        have hvw : v ≠ w := by rintro rfl; exact hnotin u hu huv
        have hv' : v ∈ rem.erase w := (List.mem_erase_of_ne hvw).2 hv
        by_cases huw : u = w
        · subst huw
          rw [List.indexOf_cons_self]
          rw [List.indexOf_cons_ne order' (Ne.symm hvw)]
          omega
        · have hu' : u ∈ rem.erase w := (List.mem_erase_of_ne huw).2 hu
          have := ih (rem.erase w) order' hrec (hnd.erase w) u v huv hu' hv'
          rw [List.indexOf_cons_ne order' (Ne.symm huw),
            List.indexOf_cons_ne order' (Ne.symm hvw)]
          omega

lemma kahnAux_isSome {es : List (String × String)} (hacy : Acyclic es) :
    ∀ (fuel : Nat) (rem : List String), rem.length ≤ fuel →
      ∃ order, kahnAux es fuel rem = some order := by
  intro fuel
  induction fuel with
  | zero =>
    intro rem hlen
    have : rem = [] := List.length_eq_zero.1 (Nat.le_zero.1 hlen)
    subst this
    exact ⟨[], rfl⟩
  | succ fuel ih =>
    intro rem hlen
    by_cases hne : rem = []
    · subst hne
      exact ⟨[], rfl⟩
    · obtain ⟨v0, hv0, hready⟩ := exists_ready hne hacy
      have hfind : ∃ w, rem.find? (ready es rem) = some w := by
        cases hf : rem.find? (ready es rem) with
        | none =>
          have := List.find?_eq_none.1 hf v0 hv0
          simp [hready] at this
        | some w => exact ⟨w, rfl⟩
      obtain ⟨w, hw⟩ := hfind
      have hwmem : w ∈ rem := List.mem_of_find?_eq_some hw
      have hpos : 0 < rem.length := List.length_pos.2 hne
      have hlen' : (rem.erase w).length ≤ fuel := by
        rw [List.length_erase_of_mem hwmem]
        omega
      obtain ⟨order', hord⟩ := ih (rem.erase w) hlen'
      refine ⟨w :: order', ?_⟩
      simp only [kahnAux, hw, hord]

/-! ## Lemmas about the DiGraph vertex list -/

lemma mem_insertNew {l : List String} {x a : String} :
    a ∈ insertNew l x ↔ a ∈ l ∨ a = x := by
  unfold insertNew
  split
  · rename_i hx
    constructor
    · exact Or.inl
    · rintro (h | rfl)
      · exact h
      · exact hx
  · simp

lemma nodup_insertNew {l : List String} {x : String} (h : l.Nodup) :
    (insertNew l x).Nodup := by
  unfold insertNew
  split
  · exact h
  · rename_i hx
    simp [List.nodup_append, h, hx]

lemma mem_foldl_insertNew :
    ∀ (l acc : List String) (a : String),
      a ∈ l.foldl insertNew acc ↔ a ∈ acc ∨ a ∈ l := by
  intro l
  induction l with
  | nil => intro acc a; simp
  | cons x xs ih =>
    intro acc a
    simp only [List.foldl_cons]
    rw [ih, mem_insertNew, List.mem_cons]
    tauto

lemma nodup_foldl_insertNew :
    ∀ (l acc : List String), acc.Nodup → (l.foldl insertNew acc).Nodup := by
  intro l
  induction l with
  | nil => intro acc h; simpa
  | cons x xs ih => intro acc h; exact ih _ (nodup_insertNew h)

lemma mem_foldl_insertNew2 :
    ∀ (es : List (String × String)) (acc : List String) (a : String),
      a ∈ es.foldl (fun acc p => insertNew (insertNew acc p.1) p.2) acc ↔
        a ∈ acc ∨ ∃ p ∈ es, a = p.1 ∨ a = p.2 := by
  intro es
  induction es with
  | nil => intro acc a; simp
  | cons q qs ih =>
    intro acc a
    simp only [List.foldl_cons]
    rw [ih, mem_insertNew, mem_insertNew]
    simp only [List.mem_cons]
    constructor
    · rintro (((h | rfl) | rfl) | ⟨p, hp, h⟩)
      · exact Or.inl h
      · exact Or.inr ⟨q, Or.inl rfl, Or.inl rfl⟩
      · exact Or.inr ⟨q, Or.inl rfl, Or.inr rfl⟩
      · exact Or.inr ⟨p, Or.inr hp, h⟩
    · rintro (h | ⟨p, rfl | hp, h⟩)
      · exact Or.inl (Or.inl (Or.inl h))
      · rcases h with rfl | rfl
        · exact Or.inl (Or.inl (Or.inr rfl))
        · exact Or.inl (Or.inr rfl)
      · exact Or.inr ⟨p, hp, h⟩

lemma nodup_foldl_insertNew2 :
    ∀ (es : List (String × String)) (acc : List String), acc.Nodup →
      (es.foldl (fun acc p => insertNew (insertNew acc p.1) p.2) acc).Nodup := by
  intro es
  induction es with
  | nil => intro acc h; simpa
  | cons q qs ih =>
    intro acc h
    exact ih _ (nodup_insertNew (nodup_insertNew h))

lemma mem_graphVertices {ids : List String} {es : List (String × String)} {a : String} :
    a ∈ graphVertices ids es ↔ a ∈ ids ∨ ∃ p ∈ es, a = p.1 ∨ a = p.2 := by
  unfold graphVertices
  rw [mem_foldl_insertNew2, mem_foldl_insertNew]
  simp

lemma nodup_graphVertices (ids : List String) (es : List (String × String)) :
    (graphVertices ids es).Nodup :=
  nodup_foldl_insertNew2 _ _ (nodup_foldl_insertNew _ _ List.nodup_nil)

/-- Any rank function that strictly increases along every edge certifies
acyclicity of the edge list. -/
lemma acyclic_of_rank (es : List (String × String)) (rank : String → Nat)
    (h : ∀ p ∈ es, rank p.1 < rank p.2) : Acyclic es := by
  intro v hv
  have hmono : ∀ a b, Relation.TransGen (edgeStep es) a b → rank a < rank b := by
    intro a b htg
    induction htg with
    | single h1 => exact h (_, _) h1
    | tail _ h1 ih => exact lt_trans ih (h (_, _) h1)
  exact absurd (hmono v v hv) (lt_irrefl _)

/-! ## Claim theorems for `get_execution_order` -/

/-- C1: on an acyclic connection set whose endpoints all appear in the
node table (whose ids are unique, per the data model), the execution
order is a permutation of the node ids in which every edge's origin
precedes its destination. -/
theorem get_execution_order_topological (df_nodes : List NodeRow) (conns : List ConnRow)
    (hnd : (df_nodes.map NodeRow.tool_id).Nodup)
    (hend : ∀ p ∈ collapsedEdges conns,
      p.1 ∈ df_nodes.map NodeRow.tool_id ∧ p.2 ∈ df_nodes.map NodeRow.tool_id)
    (hacy : Acyclic (collapsedEdges conns)) :
    ∃ order, get_execution_order df_nodes conns = Except.ok order ∧
      order.Perm (df_nodes.map NodeRow.tool_id) ∧
      ∀ p ∈ collapsedEdges conns, order.indexOf p.1 < order.indexOf p.2 := by
  obtain ⟨order, hord⟩ := kahnAux_isSome hacy
    (graphVertices (df_nodes.map NodeRow.tool_id) (collapsedEdges conns)).length
    (graphVertices (df_nodes.map NodeRow.tool_id) (collapsedEdges conns)) le_rfl
  have hperm_vs : order.Perm (graphVertices (df_nodes.map NodeRow.tool_id) (collapsedEdges conns)) :=
    kahnAux_perm _ _ _ hord
  have hvs_ids : ∀ a,
      a ∈ graphVertices (df_nodes.map NodeRow.tool_id) (collapsedEdges conns) ↔
        a ∈ df_nodes.map NodeRow.tool_id := by
    intro a
    rw [mem_graphVertices]
    constructor
    · rintro (h | ⟨p, hp, rfl | rfl⟩)
      · exact h
      · exact (hend p hp).1
      · exact (hend p hp).2
    · exact Or.inl
  have hvs_perm :
      (graphVertices (df_nodes.map NodeRow.tool_id) (collapsedEdges conns)).Perm
        (df_nodes.map NodeRow.tool_id) :=
    (List.perm_ext_iff_of_nodup (nodup_graphVertices _ _) hnd).2 hvs_ids
  refine ⟨order, ?_, hperm_vs.trans hvs_perm, ?_⟩
  · simp only [get_execution_order, topoSort, hord]
  · intro p hp
    exact kahnAux_respects _ _ _ hord (nodup_graphVertices _ _) p.1 p.2 hp
      (mem_graphVertices.2 (Or.inr ⟨p, hp, Or.inl rfl⟩))
      (mem_graphVertices.2 (Or.inr ⟨p, hp, Or.inr rfl⟩))

/-- Witness for C1: a three-node chain `1 → 2 → 3`. -/
theorem get_execution_order_topological_witness :
    ∃ order,
      get_execution_order
          [NodeRow.mk "1" (some "Filter") "", NodeRow.mk "2" (some "Filter") "",
            NodeRow.mk "3" (some "Filter") ""]
          [ConnRow.mk (some "1") (some "Output") (some "2") (some "Input"),
            ConnRow.mk (some "2") (some "Output") (some "3") (some "Input")]
        = Except.ok order ∧
      order.Perm (([NodeRow.mk "1" (some "Filter") "", NodeRow.mk "2" (some "Filter") "",
        NodeRow.mk "3" (some "Filter") ""]).map NodeRow.tool_id) ∧
      ∀ p ∈ collapsedEdges
          [ConnRow.mk (some "1") (some "Output") (some "2") (some "Input"),
            ConnRow.mk (some "2") (some "Output") (some "3") (some "Input")],
        order.indexOf p.1 < order.indexOf p.2 :=
  get_execution_order_topological _ _ (by decide) (by decide)
    (acyclic_of_rank _ (fun s => if s = "1" then 0 else if s = "2" then 1 else 2) (by decide))

/-- C2: a connection set whose collapsed edge relation has a cycle makes
`get_execution_order` fail with exactly the cycle-detected message, and
no ordering is returned. -/
theorem get_execution_order_cycle_error (df_nodes : List NodeRow) (conns : List ConnRow)
    (hcyc : ∃ v, Relation.TransGen (edgeStep (collapsedEdges conns)) v v) :
    get_execution_order df_nodes conns
      = Except.error "Cycle detected in workflow connections!" := by
  obtain ⟨v, hv⟩ := hcyc
  cases hts : topoSort (collapsedEdges conns)
      (graphVertices (df_nodes.map NodeRow.tool_id) (collapsedEdges conns)) with
  | none => simp only [get_execution_order, hts]
  | some order =>
    exfalso
    have hresp : ∀ p ∈ collapsedEdges conns, order.indexOf p.1 < order.indexOf p.2 := by
      intro p hp
      exact kahnAux_respects _ _ _ hts (nodup_graphVertices _ _) p.1 p.2 hp
        (mem_graphVertices.2 (Or.inr ⟨p, hp, Or.inl rfl⟩))
        (mem_graphVertices.2 (Or.inr ⟨p, hp, Or.inr rfl⟩))
    have hmono : ∀ a b, Relation.TransGen (edgeStep (collapsedEdges conns)) a b →
        order.indexOf a < order.indexOf b := by
      intro a b htg
      induction htg with
      | single h1 => exact hresp (_, _) h1
      | tail _ h1 ih => exact lt_trans ih (hresp (_, _) h1)
    exact absurd (hmono v v hv) (lt_irrefl _)

/-- Witness for C2: the two-node cycle `1 → 2 → 1` from the spec's
scenario. -/
theorem get_execution_order_cycle_error_witness :
    get_execution_order []
        [ConnRow.mk (some "1") (some "Output") (some "2") (some "Input"),
          ConnRow.mk (some "2") (some "Output") (some "1") (some "Input")]
      = Except.error "Cycle detected in workflow connections!" :=
  get_execution_order_cycle_error [] _
    ⟨"1",
      Relation.TransGen.head
        (show ("1", "2") ∈ collapsedEdges
          [ConnRow.mk (some "1") (some "Output") (some "2") (some "Input"),
            ConnRow.mk (some "2") (some "Output") (some "1") (some "Input")] by decide)
        (Relation.TransGen.single
          (show ("2", "1") ∈ collapsedEdges
            [ConnRow.mk (some "1") (some "Output") (some "2") (some "Input"),
              ConnRow.mk (some "2") (some "Output") (some "1") (some "Input")] by decide))⟩

/-- C9: dangling connection endpoints are tolerated: on an acyclic
connection set the sort succeeds and returns, exactly once each, every
id that is either a node-table id or a connection endpoint. -/
theorem get_execution_order_dangling_tolerated (df_nodes : List NodeRow) (conns : List ConnRow)
    (hacy : Acyclic (collapsedEdges conns)) :
    ∃ order, get_execution_order df_nodes conns = Except.ok order ∧
      order.Nodup ∧
      ∀ x, x ∈ order ↔ (x ∈ df_nodes.map NodeRow.tool_id ∨
        ∃ p ∈ collapsedEdges conns, x = p.1 ∨ x = p.2) := by
  obtain ⟨order, hord⟩ := kahnAux_isSome hacy
    (graphVertices (df_nodes.map NodeRow.tool_id) (collapsedEdges conns)).length
    (graphVertices (df_nodes.map NodeRow.tool_id) (collapsedEdges conns)) le_rfl
  have hperm_vs : order.Perm (graphVertices (df_nodes.map NodeRow.tool_id) (collapsedEdges conns)) :=
    kahnAux_perm _ _ _ hord
  refine ⟨order, ?_, ?_, ?_⟩
  · simp only [get_execution_order, topoSort, hord]
  · exact hperm_vs.nodup_iff.2 (nodup_graphVertices _ _)
  · intro x
    rw [hperm_vs.mem_iff, mem_graphVertices]

/-- Witness for C9: node table `["1"]`, one connection between the two
dangling ids `"2"` and `"3"`. -/
theorem get_execution_order_dangling_tolerated_witness :
    ∃ order,
      get_execution_order [NodeRow.mk "1" (some "Filter") ""]
          [ConnRow.mk (some "2") (some "Output") (some "3") (some "Input")]
        = Except.ok order ∧
      order.Nodup ∧
      ∀ x, x ∈ order ↔
        (x ∈ ([NodeRow.mk "1" (some "Filter") ""]).map NodeRow.tool_id ∨
          ∃ p ∈ collapsedEdges [ConnRow.mk (some "2") (some "Output") (some "3") (some "Input")],
            x = p.1 ∨ x = p.2) :=
  get_execution_order_dangling_tolerated _ _
    (acyclic_of_rank _ (fun s => if s = "2" then 0 else 1) (by decide))

/-! ## Lemmas about chains and the adjacency structure -/

lemma getLast?_cons_of_ne_nil {α : Type} (a : α) {l : List α} (h : l ≠ []) :
    (a :: l).getLast? = l.getLast? := by
  cases l with
  | nil => exact absurd rfl h
  | cons b t => rfl

lemma chainPairs_concat :
    ∀ (l : List String) (a x : String), l.getLast? = some a →
      chainPairs (l ++ [x]) = chainPairs l ++ [(a, x)] := by
  intro l
  induction l with
  | nil => intro a x h; simp at h
  | cons c t ih =>
    intro a x h
    cases t with
    | nil =>
      have : c = a := by simpa using h
      subst this
      rfl
    | cons d t' =>
      have h' : (d :: t').getLast? = some a := by
        rwa [getLast?_cons_of_ne_nil c (by simp)] at h
      calc chainPairs ((c :: d :: t') ++ [x])
          = (c, d) :: chainPairs ((d :: t') ++ [x]) := rfl
        _ = (c, d) :: (chainPairs (d :: t') ++ [(a, x)]) := by rw [ih a x h']
        _ = chainPairs (c :: d :: t') ++ [(a, x)] := rfl

lemma chainsPairs_append (l : List (List String)) (c : List String) :
    chainsPairs (l ++ [c]) = chainsPairs l ++ chainPairs c := by
  simp [chainsPairs]

lemma mem_adjPairs {adj : List (String × List String)} {p : String × String} :
    p ∈ adjPairs adj ↔ ∃ q ∈ adj, ∃ v ∈ q.2, (q.1, v) = p := by
  simp only [adjPairs, List.mem_flatten, List.mem_map]
  constructor
  · rintro ⟨l, ⟨q, hq, rfl⟩, hp⟩
    obtain ⟨v, hv, hvp⟩ := List.mem_map.1 hp
    exact ⟨q, hq, v, hv, hvp⟩
  · rintro ⟨q, hq, v, hv, rfl⟩
    exact ⟨q.2.map (fun x => (q.1, x)), ⟨q, hq, rfl⟩, List.mem_map.2 ⟨v, hv, rfl⟩⟩

lemma adjPairs_addAdj (adj : List (String × List String)) (u v : String) :
    (adjPairs (addAdj adj u v)).Perm (adjPairs adj ++ [(u, v)]) := by
  induction adj with
  | nil => simp [addAdj, adjPairs]
  | cons q rest ih =>
    obtain ⟨w, vs⟩ := q
    by_cases hw : w = u
    · subst hw
      have hstep : addAdj ((w, vs) :: rest) w v = (w, vs ++ [v]) :: rest := by
        simp [addAdj]
      rw [hstep]
      simp only [adjPairs, List.map_cons, List.flatten_cons, List.map_append, List.map_nil]
      rw [List.append_assoc, List.append_assoc]
      exact List.Perm.append_left _ List.perm_append_comm
    · have hstep : addAdj ((w, vs) :: rest) u v = (w, vs) :: addAdj rest u v := by
        simp [addAdj, hw]
      rw [hstep]
      simp only [adjPairs, List.map_cons, List.flatten_cons] at ih ⊢
      rw [List.append_assoc]
      exact List.Perm.append_left _ ih

lemma adjPairs_foldl_addAdj :
    ∀ (rows : List (String × String)) (acc : List (String × List String)),
      (adjPairs (rows.foldl (fun a p => addAdj a p.1 p.2) acc)).Perm (adjPairs acc ++ rows) := by
  intro rows
  induction rows with
  | nil => intro acc; simp
  | cons p rest ih =>
    intro acc
    simp only [List.foldl_cons]
    refine (ih (addAdj acc p.1 p.2)).trans ?_
    refine (List.Perm.append_right rest (adjPairs_addAdj acc p.1 p.2)).trans ?_
    rw [List.append_assoc]
    have : ([(p.1, p.2)] ++ rest : List (String × String)) = p :: rest := by simp
    rw [this]

lemma adjPairs_buildAdj (rows : List (String × String)) :
    (adjPairs (buildAdj rows)).Perm rows := by
  have := adjPairs_foldl_addAdj rows []
  simpa [buildAdj, adjPairs] using this

lemma adjLookup_mem {adj : List (String × List String)} {u v : String}
    (h : v ∈ adjLookup adj u) : (u, v) ∈ adjPairs adj := by
  unfold adjLookup at h
  cases hf : adj.find? (fun p => p.1 = u) with
  | none => rw [hf] at h; simp at h
  | some q =>
    rw [hf] at h
    have hq : q ∈ adj := List.mem_of_find?_eq_some hf
    have hq1 : q.1 = u := by
      have := List.find?_some hf
      simpa using this
    exact mem_adjPairs.2 ⟨q, hq, v, h, by rw [hq1]⟩

lemma chainLoopPost_refl (rows U0 : List (String × String)) (chain : List String)
    (used : List (String × String))
    (hused : used = U0 ++ chainPairs chain) (hnodup : used.Nodup)
    (hpairs : ∀ p ∈ chainPairs chain, p ∈ rows)
    (hint : ∀ x ∈ chain.tail.dropLast, inDeg rows x = 1 ∧ outDeg rows x = 1) :
    ChainLoopPost rows U0 chain (chain, used) :=
  ⟨⟨[], (List.append_nil chain).symm⟩, hused, hnodup, hpairs, hint⟩

lemma chainLoop_spec (rows : List (String × String)) (adj : List (String × List String))
    (hadj : ∀ u v, v ∈ adjLookup adj u → (u, v) ∈ rows) :
    ∀ (fuel : Nat) (chain : List String) (used U0 : List (String × String)) (current : String),
      chain.getLast? = some current →
      used = U0 ++ chainPairs chain →
      used.Nodup →
      (∀ p ∈ chainPairs chain, p ∈ rows) →
      (∀ x ∈ chain.tail.dropLast, inDeg rows x = 1 ∧ outDeg rows x = 1) →
      ChainLoopPost rows U0 chain (chainLoop rows adj fuel chain used current) := by
  intro fuel
  induction fuel with
  | zero =>
    intro chain used U0 current _ hused hnodup hpairs hint
    exact chainLoopPost_refl rows U0 chain used hused hnodup hpairs hint
  | succ fuel ih =>
    intro chain used U0 current hlast hused hnodup hpairs hint
    by_cases hdeg : inDeg rows current = 1 ∧ outDeg rows current = 1
    · cases hl : adjLookup adj current with
      | nil =>
        have hstep : chainLoop rows adj (fuel+1) chain used current = (chain, used) := by
          simp [chainLoop, hl, hdeg]
        rw [hstep]
        exact chainLoopPost_refl rows U0 chain used hused hnodup hpairs hint
      | cons nxt rest =>
        by_cases husedmem : (current, nxt) ∈ used
        · have hstep : chainLoop rows adj (fuel+1) chain used current = (chain, used) := by
            simp [chainLoop, hl, hdeg, husedmem]
          rw [hstep]
          exact chainLoopPost_refl rows U0 chain used hused hnodup hpairs hint
        · have hstep : chainLoop rows adj (fuel+1) chain used current
              = chainLoop rows adj fuel (chain ++ [nxt]) (used ++ [(current, nxt)]) nxt := by
            simp [chainLoop, hl, hdeg, husedmem]
          rw [hstep]
          have hchain_ne : chain ≠ [] := by
            intro hc
            rw [hc] at hlast
            simp at hlast
          have hlast' : (chain ++ [nxt]).getLast? = some nxt := List.getLast?_concat _
          have hcpc : chainPairs (chain ++ [nxt]) = chainPairs chain ++ [(current, nxt)] :=
            chainPairs_concat chain current nxt hlast
          have hused' : used ++ [(current, nxt)] = U0 ++ chainPairs (chain ++ [nxt]) := by
            rw [hcpc, hused, List.append_assoc]
          have hnodup' : (used ++ [(current, nxt)]).Nodup := by
            simp [List.nodup_append, hnodup, husedmem]
          have hrow : (current, nxt) ∈ rows :=
            hadj current nxt (by rw [hl]; exact List.mem_cons_self _ _)
          have hpairs' : ∀ p ∈ chainPairs (chain ++ [nxt]), p ∈ rows := by
            intro p hp
            rw [hcpc] at hp
            rcases List.mem_append.1 hp with hp' | hp'
            · exact hpairs p hp'
            · have hpe : p = (current, nxt) := by simpa using hp'
              rw [hpe]
              exact hrow
          have hint' : ∀ x ∈ (chain ++ [nxt]).tail.dropLast,
              inDeg rows x = 1 ∧ outDeg rows x = 1 := by
            obtain ⟨c, t, rfl⟩ := List.exists_cons_of_ne_nil hchain_ne
            intro x hx
            rw [show ((c :: t) ++ [nxt]).tail = t ++ [nxt] from rfl] at hx
            rw [List.dropLast_concat] at hx
            by_cases ht : t = []
            · rw [ht] at hx
              simp at hx
            · have hlt : t.getLast? = some current := by
                rwa [getLast?_cons_of_ne_nil c ht] at hlast
              have hteq : t.dropLast ++ [current] = t :=
                List.dropLast_append_getLast? current hlt
              rw [← hteq] at hx
              rcases List.mem_append.1 hx with hx' | hx'
              · exact hint x (by simpa using hx')
              · have hxc : x = current := by simpa using hx'
                rw [hxc]
                exact hdeg
          obtain ⟨⟨ext, hext⟩, h2, h3, h4, h5⟩ :=
            ih (chain ++ [nxt]) (used ++ [(current, nxt)]) U0 nxt
              hlast' hused' hnodup' hpairs' hint'
          exact ⟨⟨[nxt] ++ ext, by rw [hext, List.append_assoc]⟩, h2, h3, h4, h5⟩
    · have hstep : chainLoop rows adj (fuel+1) chain used current = (chain, used) := by
        simp [chainLoop, hdeg]
      rw [hstep]
      exact chainLoopPost_refl rows U0 chain used hused hnodup hpairs hint

lemma build_chain_spec (rows : List (String × String)) (adj : List (String × List String))
    (hadj : ∀ u v, v ∈ adjLookup adj u → (u, v) ∈ rows)
    (fuel : Nat) (used : List (String × String)) (u v : String)
    (hrow : (u, v) ∈ rows) (hnodup : used.Nodup) (hnotin : (u, v) ∉ used) :
    ChainLoopPost rows used [u, v] (build_chain rows adj fuel used u v) := by
  apply chainLoop_spec rows adj hadj fuel [u, v] (used ++ [(u, v)]) used v
  · rfl
  · rfl
  · simp [List.nodup_append, hnodup, hnotin]
  · intro p hp
    have hpe : p = (u, v) := by simpa [chainPairs] using hp
    rw [hpe]
    exact hrow
  · intro x hx
    simp at hx

lemma mainInner_spec (rows : List (String × String)) (adj : List (String × List String))
    (hadj : ∀ u v, v ∈ adjLookup adj u → (u, v) ∈ rows) (u : String) :
    ∀ (vs : List String) (st : List (List String) × List (String × String)),
      StInv rows st →
      (∀ v ∈ vs, (u, v) ∈ rows) →
      StInv rows (mainInner rows adj u st vs) ∧
      (∃ ext, (mainInner rows adj u st vs).2 = st.2 ++ ext) ∧
      (∀ v ∈ vs, (u, v) ∈ (mainInner rows adj u st vs).2) := by
  intro vs
  induction vs with
  | nil =>
    intro st hinv _
    refine ⟨hinv, ⟨[], (List.append_nil _).symm⟩, ?_⟩
    intro w hw
    simp at hw
  | cons v vs ih =>
    intro st hinv hvs
    by_cases hmem : (u, v) ∈ st.2
    · have hstep : mainInner rows adj u st (v :: vs) = mainInner rows adj u st vs := by
        simp [mainInner, hmem]
      rw [hstep]
      obtain ⟨hinv', ⟨ext, hext⟩, hcov⟩ :=
        ih st hinv (fun w hw => hvs w (List.mem_cons_of_mem _ hw))
      refine ⟨hinv', ⟨ext, hext⟩, ?_⟩
      intro w hw
      rcases List.mem_cons.1 hw with rfl | hw'
      · rw [hext]
        exact List.mem_append_left _ hmem
      · exact hcov w hw'
    · have hrow : (u, v) ∈ rows := hvs v (List.mem_cons_self _ _)
      obtain ⟨hinv1, hinv2, hinv3, hinv4⟩ := hinv
      cases hbc : build_chain rows adj rows.length st.2 u v with
      | mk c used' =>
        have hstep : mainInner rows adj u st (v :: vs)
            = mainInner rows adj u (st.1 ++ [c], used') vs := by
          simp [mainInner, hmem, hbc]
        have hpost := build_chain_spec rows adj hadj rows.length st.2 u v hrow hinv2 hmem
        rw [hbc] at hpost
        simp only [ChainLoopPost] at hpost
        obtain ⟨⟨ext0, hext0⟩, husedp, hnodup', hpairs', hint'⟩ := hpost
        have hcmem : (u, v) ∈ chainPairs c := by
          rw [hext0]
          exact List.mem_cons_self _ _
        have hinvNew : StInv rows (st.1 ++ [c], used') := by
          refine ⟨?_, hnodup', ?_, ?_⟩
          · rw [chainsPairs_append, ← hinv1]
            exact husedp
          · intro p hp
            rw [husedp] at hp
            rcases List.mem_append.1 hp with hp' | hp'
            · exact hinv3 p hp'
            · exact hpairs' p hp'
          · intro c' hc'
            rcases List.mem_append.1 hc' with hc'' | hc''
            · exact hinv4 c' hc''
            · have hce : c' = c := by simpa using hc''
              subst hce
              refine ⟨?_, hpairs', hint'⟩
              rw [hext0]
              simp
        rw [hstep]
        obtain ⟨hinvf, ⟨ext2, hext2⟩, hcov⟩ :=
          ih _ hinvNew (fun w hw => hvs w (List.mem_cons_of_mem _ hw))
        have hext2' : (mainInner rows adj u (st.1 ++ [c], used') vs).2 = used' ++ ext2 := hext2
        refine ⟨hinvf, ⟨chainPairs c ++ ext2, ?_⟩, ?_⟩
        · rw [hext2', husedp, List.append_assoc]
        · intro w hw
          rcases List.mem_cons.1 hw with rfl | hw'
          · rw [hext2']
            apply List.mem_append_left
            rw [husedp]
            exact List.mem_append_right _ hcmem
          · exact hcov w hw'

lemma mainOuter_spec (rows : List (String × String)) (adj : List (String × List String))
    (hadj : ∀ u v, v ∈ adjLookup adj u → (u, v) ∈ rows) :
    ∀ (entries : List (String × List String)) (st : List (List String) × List (String × String)),
      StInv rows st →
      (∀ e ∈ entries, ∀ v ∈ e.2, (e.1, v) ∈ rows) →
      StInv rows (mainOuter rows adj st entries) ∧
      (∃ ext, (mainOuter rows adj st entries).2 = st.2 ++ ext) ∧
      (∀ e ∈ entries, ∀ v ∈ e.2, (e.1, v) ∈ (mainOuter rows adj st entries).2) := by
  intro entries
  induction entries with
  | nil =>
    intro st hinv _
    exact ⟨hinv, ⟨[], (List.append_nil _).symm⟩, fun e he => absurd he (by simp)⟩
  | cons e rest ih =>
    intro st hinv hent
    obtain ⟨u, vs⟩ := e
    have hstep : mainOuter rows adj st ((u, vs) :: rest)
        = mainOuter rows adj (mainInner rows adj u st vs) rest := rfl
    rw [hstep]
    have hvs : ∀ v ∈ vs, (u, v) ∈ rows :=
      fun v hv => hent (u, vs) (List.mem_cons_self _ _) v hv
    obtain ⟨hinv', ⟨ext1, hext1⟩, hcov1⟩ := mainInner_spec rows adj hadj u vs st hinv hvs
    obtain ⟨hinvf, ⟨ext2, hext2⟩, hcov2⟩ := ih (mainInner rows adj u st vs) hinv'
      (fun e' he' v hv => hent e' (List.mem_cons_of_mem _ he') v hv)
    refine ⟨hinvf, ⟨ext1 ++ ext2, by rw [hext2, hext1, List.append_assoc]⟩, ?_⟩
    intro e' he' v hv
    rcases List.mem_cons.1 he' with rfl | he''
    · rw [hext2]
      exact List.mem_append_left _ (hcov1 v hv)
    · exact hcov2 e' he'' v hv

/-! ## Claim theorems for `parse_linear_chains` -/

/-- C3 (amended): when the collapsed `(origin, destination)` pairs of the
connection rows are pairwise distinct, the multiset of all chains'
consecutive pairs is a permutation of the full connection-edge multiset
(each edge exactly once), and every interior vertex of every chain has
in-degree 1 and out-degree 1 in the graph.  (With duplicated pairs the
used-edge SET makes the duplicates collapse; see the counterexample.) -/
theorem parse_linear_chains_edge_partition (conns : List ConnRow)
    (hnd : (rowPairs conns).Nodup) :
    (chainsPairs (parse_linear_chains conns)).Perm (rowPairs conns) ∧
    ∀ c ∈ parse_linear_chains conns, ∀ x ∈ c.tail.dropLast,
      inDeg (rowPairs conns) x = 1 ∧ outDeg (rowPairs conns) x = 1 := by
  have hadj : ∀ u v, v ∈ adjLookup (buildAdj (rowPairs conns)) u → (u, v) ∈ rowPairs conns := by
    intro u v h
    exact ((adjPairs_buildAdj (rowPairs conns)).mem_iff).1 (adjLookup_mem h)
  have hent : ∀ e ∈ buildAdj (rowPairs conns), ∀ v ∈ e.2, (e.1, v) ∈ rowPairs conns := by
    intro e he v hv
    exact ((adjPairs_buildAdj (rowPairs conns)).mem_iff).1 (mem_adjPairs.2 ⟨e, he, v, hv, rfl⟩)
  have hinv0 : StInv (rowPairs conns) ([], []) := by
    refine ⟨rfl, List.nodup_nil, ?_, ?_⟩
    · intro p hp; simp at hp
    · intro c hc; simp at hc
  obtain ⟨⟨hst1, hst2, hst3, hst4⟩, ⟨ext, hext⟩, hcov⟩ :=
    mainOuter_spec (rowPairs conns) (buildAdj (rowPairs conns)) hadj
      (buildAdj (rowPairs conns)) ([], []) hinv0 hent
  constructor
  · have hcov' : ∀ p ∈ rowPairs conns,
        p ∈ (mainOuter (rowPairs conns) (buildAdj (rowPairs conns)) ([], [])
          (buildAdj (rowPairs conns))).2 := by
      intro p hp
      have hp' : p ∈ adjPairs (buildAdj (rowPairs conns)) :=
        ((adjPairs_buildAdj _).mem_iff).2 hp
      obtain ⟨q, hq, v, hv, hqe⟩ := mem_adjPairs.1 hp'
      rw [← hqe]
      exact hcov q hq v hv
    have hperm : (mainOuter (rowPairs conns) (buildAdj (rowPairs conns)) ([], [])
        (buildAdj (rowPairs conns))).2.Perm (rowPairs conns) :=
      (List.perm_ext_iff_of_nodup hst2 hnd).2 (fun p => ⟨hst3 p, hcov' p⟩)
    rw [hst1] at hperm
    exact hperm
  · intro c hc
    exact (hst4 c hc).2.2

/-- Counterexample for C3 as stated: two parallel connections between
tool `"1"` and tool `"2"` (same collapsed pair, different ports) give an
edge multiset with the pair twice, but the chains cover it only once —
the `used_edges` set silently drops the duplicate. -/
theorem parse_linear_chains_duplicate_edge_counterexample :
    ¬ (chainsPairs (parse_linear_chains
        [ConnRow.mk (some "1") (some "Output") (some "2") (some "Input"),
          ConnRow.mk (some "1") (some "True") (some "2") (some "Input2")])).Perm
      (rowPairs
        [ConnRow.mk (some "1") (some "Output") (some "2") (some "Input"),
          ConnRow.mk (some "1") (some "True") (some "2") (some "Input2")]) := by
  decide

/-- Witness for C3 (amended) on the two-edge chain `1 → 2 → 3`. -/
theorem parse_linear_chains_edge_partition_witness :
    (chainsPairs (parse_linear_chains
        [ConnRow.mk (some "1") (some "Output") (some "2") (some "Input"),
          ConnRow.mk (some "2") (some "Output") (some "3") (some "Input")])).Perm
      (rowPairs
        [ConnRow.mk (some "1") (some "Output") (some "2") (some "Input"),
          ConnRow.mk (some "2") (some "Output") (some "3") (some "Input")]) ∧
    ∀ c ∈ parse_linear_chains
        [ConnRow.mk (some "1") (some "Output") (some "2") (some "Input"),
          ConnRow.mk (some "2") (some "Output") (some "3") (some "Input")],
      ∀ x ∈ c.tail.dropLast,
        inDeg (rowPairs
          [ConnRow.mk (some "1") (some "Output") (some "2") (some "Input"),
            ConnRow.mk (some "2") (some "Output") (some "3") (some "Input")]) x = 1 ∧
        outDeg (rowPairs
          [ConnRow.mk (some "1") (some "Output") (some "2") (some "Input"),
            ConnRow.mk (some "2") (some "Output") (some "3") (some "Input")]) x = 1 :=
  parse_linear_chains_edge_partition
    [ConnRow.mk (some "1") (some "Output") (some "2") (some "Input"),
      ConnRow.mk (some "2") (some "Output") (some "3") (some "Input")] (by decide)

/-- C10: every chain returned by `parse_linear_chains` has at least two
vertices and each pair of consecutive chain vertices is a connection
pair of the input. -/
theorem parse_linear_chains_chains_are_paths (conns : List ConnRow) :
    ∀ c ∈ parse_linear_chains conns, 2 ≤ c.length ∧
      ∀ p ∈ chainPairs c, p ∈ rowPairs conns := by
  have hadj : ∀ u v, v ∈ adjLookup (buildAdj (rowPairs conns)) u → (u, v) ∈ rowPairs conns := by
    intro u v h
    exact ((adjPairs_buildAdj (rowPairs conns)).mem_iff).1 (adjLookup_mem h)
  have hent : ∀ e ∈ buildAdj (rowPairs conns), ∀ v ∈ e.2, (e.1, v) ∈ rowPairs conns := by
    intro e he v hv
    exact ((adjPairs_buildAdj (rowPairs conns)).mem_iff).1 (mem_adjPairs.2 ⟨e, he, v, hv, rfl⟩)
  have hinv0 : StInv (rowPairs conns) ([], []) := by
    refine ⟨rfl, List.nodup_nil, ?_, ?_⟩
    · intro p hp; simp at hp
    · intro c hc; simp at hc
  obtain ⟨⟨hst1, hst2, hst3, hst4⟩, -, -⟩ :=
    mainOuter_spec (rowPairs conns) (buildAdj (rowPairs conns)) hadj
      (buildAdj (rowPairs conns)) ([], []) hinv0 hent
  intro c hc
  exact ⟨(hst4 c hc).1, (hst4 c hc).2.1⟩

/-- Witness for C10: the single chain `["1","2","3"]` produced from the
connections `1 → 2 → 3`. -/
theorem parse_linear_chains_chains_are_paths_witness :
    2 ≤ (["1", "2", "3"] : List String).length ∧
      ∀ p ∈ chainPairs ["1", "2", "3"],
        p ∈ rowPairs
          [ConnRow.mk (some "1") (some "Output") (some "2") (some "Input"),
            ConnRow.mk (some "2") (some "Output") (some "3") (some "Input")] :=
  parse_linear_chains_chains_are_paths
    [ConnRow.mk (some "1") (some "Output") (some "2") (some "Input"),
      ConnRow.mk (some "2") (some "Output") (some "3") (some "Input")]
    ["1", "2", "3"] (by decide)
